import Mathlib

/-!
Verification of the KMP exact substring search implementation
(`compute_lps` and `kmp_search` from `KPM_Algorithm.py`).

The two Python functions are embedded shallowly:

* sequences are `List α` over an arbitrary type `α` with decidable equality
  (the algorithm only compares symbols for equality);
* every subscript read `xs[i]` of the source is modelled by the total
  lookup `xs[i]?`; a read that would be out of bounds surfaces as the
  result `.error .oob`;
* each `while` loop is modelled by a fuel-indexed tail recursion; running
  out of fuel mid-loop surfaces as `.error .fuel`.  `compute_lps` runs its
  loop with fuel `2 * m`, `kmp_search` with fuel `2 * n + 1`; both bounds
  are proved sufficient.

The specification-side definitions (`maxBord`, `lpsTable`, `naive_search`)
are stated independently of the loops: `maxBord p i` is the length of the
longest proper prefix of `p.take i` that is also a suffix of it, and
`naive_search` is the quadratic reference scan from the specification.
-/

set_option linter.unusedSectionVars false

namespace KMP

variable {α : Type} [DecidableEq α]

/-- Error outcomes of the embedded loops: `.oob` models a Python
`IndexError` (a subscript read out of bounds), `.fuel` models running out
of loop fuel. -/
inductive Err where
  | oob : Err
  | fuel : Err
deriving DecidableEq

/-- The `while i < m` loop of `compute_lps` (lines 22-32 of the source),
carrying the table `lps`, the candidate length `len` and the cursor `i`. -/
def lpsLoop (p : List α) : ℕ → List ℕ → ℕ → ℕ → Except Err (List ℕ)
  | 0, lps, _, i => if i < p.length then .error .fuel else .ok lps
  | fuel + 1, lps, len, i =>
    if i < p.length then
      match p[i]?, p[len]? with
      | some pi, some plen =>
        if pi = plen then lpsLoop p fuel (lps.set i (len + 1)) (len + 1) (i + 1)
        else if len ≠ 0 then
          match lps[len - 1]? with
          | some fb => lpsLoop p fuel lps fb i
          | none => .error .oob
        else lpsLoop p fuel (lps.set i 0) 0 (i + 1)
      | _, _ => .error .oob
    else .ok lps

/-- The function `compute_lps` from the source: table initialised to `[0] * m`,
`length = 0`, `i = 1`. -/
def compute_lps (p : List α) : Except Err (List ℕ) :=
  lpsLoop p (2 * p.length) (List.replicate p.length 0) 0 1

/-- The `while i < n` loop of `kmp_search` (lines 61-75 of the source).
One iteration: compare `text[i]` with `pattern[j]` and advance both on
equality; then test `j == m` (record a match and fall back through the
table) and otherwise the `elif i < n and text[i] != pattern[j]` branch
(fall back if `j != 0`, else advance `i`). -/
def kmpLoop (t p : List α) (lps : List ℕ) : ℕ → List ℕ → ℕ → ℕ → Except Err (List ℕ)
  | 0, inds, i, _ => if i < t.length then .error .fuel else .ok inds
  | fuel + 1, inds, i, j =>
    if i < t.length then
      match t[i]?, p[j]? with
      | some ti, some pj =>
        let i' := if ti = pj then i + 1 else i
        let j' := if ti = pj then j + 1 else j
        if j' = p.length then
          match lps[j' - 1]? with
          | some fb => kmpLoop t p lps fuel (inds ++ [i' - j']) i' fb
          | none => .error .oob
        else if i' < t.length then
          match t[i']?, p[j']? with
          | some ti', some pj' =>
            if ti' = pj' then kmpLoop t p lps fuel inds i' j'
            else if j' ≠ 0 then
              match lps[j' - 1]? with
              | some fb => kmpLoop t p lps fuel inds i' fb
              | none => .error .oob
            else kmpLoop t p lps fuel inds (i' + 1) j'
          | _, _ => .error .oob
        else kmpLoop t p lps fuel inds i' j'
      | _, _ => .error .oob
    else .ok inds

/-- The function `kmp_search` parameterised by the failure-table builder; the builder is
only consulted after the `m == 0 or m > n` early return, exactly as in the
source. -/
def kmp_search_with (builder : List α → Except Err (List ℕ)) (t p : List α) :
    Except Err (List ℕ) :=
  if p.length = 0 ∨ t.length < p.length then .ok []
  else
    match builder p with
    | .error e => .error e
    | .ok lps => kmpLoop t p lps (2 * t.length + 1) [] 0 0

/-- The function `kmp_search` from the source. -/
def kmp_search (t p : List α) : Except Err (List ℕ) :=
  kmp_search_with compute_lps t p

/-- Specification-side value: the length of the longest proper prefix of
`p.take i` that is also a suffix of `p.take i` (the greatest `k ≤ i - 1`
with `p.take k` a suffix of `p.take i`; `k = 0` always qualifies). -/
def maxBord (p : List α) (i : ℕ) : ℕ :=
  Nat.findGreatest (fun k => p.take k <:+ p.take i) (i - 1)

/-- Specification-side failure table: entry `i` is the longest proper
prefix-suffix length of `pattern[0..=i]`. -/
def lpsTable (p : List α) : List ℕ :=
  (List.range p.length).map fun i => maxBord p (i + 1)

/-- The naive quadratic reference scan: all offsets `q` such that
`text[q .. q+m)` equals `pattern`. -/
def naive_search (t p : List α) : List ℕ :=
  (List.range (t.length + 1 - p.length)).filter fun q =>
    decide ((t.drop q).take p.length = p)

/-- The search loop instrumented for the claim that the `elif` condition
`i < n and text[i] != pattern[j]` is always true when the `elif` test is
reached.  The extra boolean accumulator stays `true` while every
evaluation of the condition so far was true; reaching the test with the
condition false (either `i = n` after an advance, or
`text[i] == pattern[j]` again) sets it to `false` for good. -/
def kmpLoopChk (t p : List α) (lps : List ℕ) :
    ℕ → List ℕ → ℕ → ℕ → Bool → Except Err (List ℕ × Bool)
  | 0, inds, i, _, ok => if i < t.length then .error .fuel else .ok (inds, ok)
  | fuel + 1, inds, i, j, ok =>
    if i < t.length then
      match t[i]?, p[j]? with
      | some ti, some pj =>
        let i' := if ti = pj then i + 1 else i
        let j' := if ti = pj then j + 1 else j
        if j' = p.length then
          match lps[j' - 1]? with
          | some fb => kmpLoopChk t p lps fuel (inds ++ [i' - j']) i' fb ok
          | none => .error .oob
        else if i' < t.length then
          match t[i']?, p[j']? with
          | some ti', some pj' =>
            if ti' = pj' then kmpLoopChk t p lps fuel inds i' j' false
            else if j' ≠ 0 then
              match lps[j' - 1]? with
              | some fb => kmpLoopChk t p lps fuel inds i' fb ok
              | none => .error .oob
            else kmpLoopChk t p lps fuel inds (i' + 1) j' ok
          | _, _ => .error .oob
        else kmpLoopChk t p lps fuel inds i' j' false
      | _, _ => .error .oob
    else .ok (inds, ok)

/-- The search `kmp_search` instrumented as in `kmpLoopChk`: the boolean result is
`true` iff the `elif` condition was true at every evaluation. -/
def kmp_search_chk (t p : List α) : Except Err (List ℕ × Bool) :=
  if p.length = 0 ∨ t.length < p.length then .ok ([], true)
  else
    match compute_lps p with
    | .error e => .error e
    | .ok lps => kmpLoopChk t p lps (2 * t.length + 1) [] 0 0 true

/-- The "simplified two-way branch" reading of the loop body: the `elif`
guard is dropped entirely, so whenever `j' ≠ m` the mismatch action
(fall back if `j' ≠ 0`, else advance `i`) runs unconditionally. -/
def kmpLoopTwoWay (t p : List α) (lps : List ℕ) :
    ℕ → List ℕ → ℕ → ℕ → Except Err (List ℕ)
  | 0, inds, i, _ => if i < t.length then .error .fuel else .ok inds
  | fuel + 1, inds, i, j =>
    if i < t.length then
      match t[i]?, p[j]? with
      | some ti, some pj =>
        let i' := if ti = pj then i + 1 else i
        let j' := if ti = pj then j + 1 else j
        if j' = p.length then
          match lps[j' - 1]? with
          | some fb => kmpLoopTwoWay t p lps fuel (inds ++ [i' - j']) i' fb
          | none => .error .oob
        else if j' ≠ 0 then
          match lps[j' - 1]? with
          | some fb => kmpLoopTwoWay t p lps fuel inds i' fb
          | none => .error .oob
        else kmpLoopTwoWay t p lps fuel inds (i' + 1) j'
      | _, _ => .error .oob
    else .ok inds

/-- The search `kmp_search` with the fully unguarded two-way branch. -/
def kmp_search_twoway (t p : List α) : Except Err (List ℕ) :=
  if p.length = 0 ∨ t.length < p.length then .ok []
  else
    match compute_lps p with
    | .error e => .error e
    | .ok lps => kmpLoopTwoWay t p lps (2 * t.length + 1) [] 0 0

/-- The loop with the `elif` guard elided only on iterations whose
initial comparison `text[i] == pattern[j]` failed (on that path the guard
is implied by the loop condition and the failed comparison); iterations
whose initial comparison succeeded keep the source's guarded branch
verbatim. -/
def kmpLoopMG (t p : List α) (lps : List ℕ) :
    ℕ → List ℕ → ℕ → ℕ → Except Err (List ℕ)
  | 0, inds, i, _ => if i < t.length then .error .fuel else .ok inds
  | fuel + 1, inds, i, j =>
    if i < t.length then
      match t[i]?, p[j]? with
      | some ti, some pj =>
        if ti = pj then
          if j + 1 = p.length then
            match lps[j + 1 - 1]? with
            | some fb =>
              kmpLoopMG t p lps fuel (inds ++ [i + 1 - (j + 1)]) (i + 1) fb
            | none => .error .oob
          else if i + 1 < t.length then
            match t[i + 1]?, p[j + 1]? with
            | some ti', some pj' =>
              if ti' = pj' then kmpLoopMG t p lps fuel inds (i + 1) (j + 1)
              else if j + 1 ≠ 0 then
                match lps[j + 1 - 1]? with
                | some fb => kmpLoopMG t p lps fuel inds (i + 1) fb
                | none => .error .oob
              else kmpLoopMG t p lps fuel inds (i + 1 + 1) (j + 1)
            | _, _ => .error .oob
          else kmpLoopMG t p lps fuel inds (i + 1) (j + 1)
        else
          if j = p.length then
            match lps[j - 1]? with
            | some fb => kmpLoopMG t p lps fuel (inds ++ [i - j]) i fb
            | none => .error .oob
          else if j ≠ 0 then
            match lps[j - 1]? with
            | some fb => kmpLoopMG t p lps fuel inds i fb
            | none => .error .oob
          else kmpLoopMG t p lps fuel inds (i + 1) j
      | _, _ => .error .oob
    else .ok inds

/-- The search `kmp_search` with the guard elided on the failed-comparison path
only. -/
def kmp_search_mg (t p : List α) : Except Err (List ℕ) :=
  if p.length = 0 ∨ t.length < p.length then .ok []
  else
    match compute_lps p with
    | .error e => .error e
    | .ok lps => kmpLoopMG t p lps (2 * t.length + 1) [] 0 0

/-! ### Toolkit: suffixes of prefixes (borders) -/

/-- Appending one element on both sides of a suffix relation. -/
lemma concat_suffix_concat {u v : List α} {a b : α} :
    u ++ [a] <:+ v ++ [b] ↔ a = b ∧ u <:+ v := by
  constructor
  · rintro ⟨s, hs⟩
    rw [← List.append_assoc] at hs
    obtain ⟨h1, h2⟩ := List.append_inj' hs (by simp)
    exact ⟨by simpa using h2, ⟨s, h1⟩⟩
  · rintro ⟨rfl, s, rfl⟩
    exact ⟨s, by simp⟩

lemma take_succ_of_getElem? {p : List α} {i : ℕ} {a : α} (h : p[i]? = some a) :
    p.take (i + 1) = p.take i ++ [a] := by
  rw [List.take_succ, h]
  rfl

/-- Extending a border by one matching symbol, both ways. -/
lemma bord_succ_iff {p : List α} {k i : ℕ} {pk pi : α}
    (hk : p[k]? = some pk) (hi : p[i]? = some pi) :
    p.take (k + 1) <:+ p.take (i + 1) ↔ pk = pi ∧ p.take k <:+ p.take i := by
  rw [take_succ_of_getElem? hk, take_succ_of_getElem? hi, concat_suffix_concat]

lemma maxBord_le (p : List α) (i : ℕ) : maxBord p i ≤ i - 1 :=
  Nat.findGreatest_le _

lemma maxBord_lt {p : List α} {i : ℕ} (h : 1 ≤ i) : maxBord p i < i :=
  lt_of_le_of_lt (maxBord_le p i) (by omega)

lemma maxBord_suffix (p : List α) (i : ℕ) : p.take (maxBord p i) <:+ p.take i :=
  Nat.findGreatest_spec (P := fun k => p.take k <:+ p.take i) (m := 0)
    (Nat.zero_le _) (by exact List.nil_suffix)

lemma le_maxBord {p : List α} {i k : ℕ} (hk : k ≤ i - 1)
    (h : p.take k <:+ p.take i) : k ≤ maxBord p i :=
  Nat.le_findGreatest hk h

lemma not_bord_of_maxBord_lt {p : List α} {i k : ℕ} (h1 : maxBord p i < k)
    (h2 : k ≤ i - 1) : ¬ p.take k <:+ p.take i :=
  Nat.findGreatest_is_greatest h1 h2

/-- Borders of a common list nest: the shorter is a border of the longer. -/
lemma bord_of_bord_le {p : List α} {k j : ℕ} {l : List α} (hkj : k ≤ j)
    (hk : p.take k <:+ l) (hj : p.take j <:+ l) :
    p.take k <:+ p.take j := by
  apply List.suffix_of_suffix_length_le hk hj
  simp only [List.length_take]
  omega

/-- The value of `maxBord` at cursor `1` (a single symbol has no nonempty proper
prefix). -/
lemma maxBord_one (p : List α) : maxBord p 1 = 0 := rfl

/-- After a successful comparison `pattern[i] == pattern[length]`, the
longest border of the next prefix is `length + 1`. -/
lemma maxBord_succ_eq_succ {p : List α} {i len : ℕ} {pi plen : α}
    (hlen : len < i) (hi_lt : i < p.length)
    (hpi : p[i]? = some pi) (hplen : p[len]? = some plen)
    (heq : plen = pi)
    (hb : p.take len <:+ p.take i)
    (h3 : ∀ b, b < i → p.take b <:+ p.take i → len < b → p[b]? ≠ p[i]?) :
    maxBord p (i + 1) = len + 1 := by
  rw [maxBord, Nat.add_sub_cancel, Nat.findGreatest_eq_iff]
  refine ⟨by omega, fun _ => ?_, fun n hn hn' => ?_⟩
  · exact (bord_succ_iff hplen hpi).2 ⟨heq, hb⟩
  · intro hPn
    obtain ⟨n', rfl⟩ : ∃ n', n = n' + 1 := ⟨n - 1, by omega⟩
    have hn'm : n' < p.length := by omega
    obtain ⟨pn', hpn'⟩ : ∃ a, p[n']? = some a :=
      ⟨p[n'], List.getElem?_eq_getElem hn'm⟩
    obtain ⟨hpe, hsuf⟩ := (bord_succ_iff hpn' hpi).1 hPn
    exact h3 n' (by omega) hsuf (by omega) (by rw [hpn', hpi, hpe])

/-- After a failed comparison with `length == 0`, the longest border of the
next prefix is `0`. -/
lemma maxBord_succ_eq_zero {p : List α} {i : ℕ} {pi plen : α}
    (hi_lt : i < p.length)
    (hpi : p[i]? = some pi) (hplen : p[0]? = some plen)
    (hne : plen ≠ pi)
    (h3 : ∀ b, b < i → p.take b <:+ p.take i → 0 < b → p[b]? ≠ p[i]?) :
    maxBord p (i + 1) = 0 := by
  rw [maxBord, Nat.add_sub_cancel, Nat.findGreatest_eq_zero_iff]
  intro n hn hn' hPn
  obtain ⟨n', rfl⟩ : ∃ n', n = n' + 1 := ⟨n - 1, by omega⟩
  have hn'm : n' < p.length := by omega
  obtain ⟨pn', hpn'⟩ : ∃ a, p[n']? = some a :=
    ⟨p[n'], List.getElem?_eq_getElem hn'm⟩
  obtain ⟨hpe, hsuf⟩ := (bord_succ_iff hpn' hpi).1 hPn
  rcases Nat.eq_zero_or_pos n' with rfl | hn'pos
  · rw [hpn'] at hplen
    exact hne (by injection hplen with h; rw [← h, hpe])
  · exact h3 n' (by omega) hsuf hn'pos (by rw [hpn', hpi, hpe])

/-- Once `maxBord p (i+1)` is known, no longer border of `p.take (i+1)`
exists; this re-establishes the ruled-out-candidates invariant after the
cursor advances. -/
lemma h3_of_maxBord {p : List α} {i v : ℕ} (hv : maxBord p (i + 1) = v) :
    ∀ b, b < i + 1 → p.take b <:+ p.take (i + 1) → v < b →
      p[b]? ≠ p[(i + 1)]? := by
  intro b hb hsuf hvb _
  exact not_bord_of_maxBord_lt (i := i + 1) (by omega) (by omega) hsuf

/-! ### Toolkit: the failure table and slices of the text -/

lemma length_lpsTable (p : List α) : (lpsTable p).length = p.length := by
  simp [lpsTable]

lemma lpsTable_getElem? {p : List α} {k : ℕ} (h : k < p.length) :
    (lpsTable p)[k]? = some (maxBord p (k + 1)) := by
  simp [lpsTable, List.getElem?_range h]

/-- A suffix of `t.take i` occurs as the slice of `t` ending at `i`. -/
lemma slice_of_suffix_take {t s : List α} {i : ℕ} (hi : i ≤ t.length)
    (h : s <:+ t.take i) : (t.drop (i - s.length)).take s.length = s := by
  have hlen : s.length ≤ i := by
    have := h.length_le
    simpa [List.length_take, Nat.min_eq_left hi] using this
  have hdrop := List.suffix_iff_eq_drop.1 h
  rw [List.length_take, Nat.min_eq_left hi] at hdrop
  rw [List.drop_take] at hdrop
  have : i - (i - s.length) = s.length := by omega
  rw [this] at hdrop
  exact hdrop.symm

/-- A slice of `t` is a suffix of the prefix of `t` it ends at. -/
lemma suffix_take_of_slice {t s : List α} {q k : ℕ}
    (h : (t.drop q).take k = s) : s <:+ t.take (q + k) := by
  have : (t.take (q + k)).drop q = (t.drop q).take k := by
    rw [List.drop_take]
    congr 1
    omega
  rw [← h, ← this]
  exact List.drop_suffix _ _

/-- Reading one symbol of a matching slice. -/
lemma slice_getElem? {t p : List α} {q : ℕ}
    (h : (t.drop q).take p.length = p) {idx : ℕ} (hidx : idx < p.length) :
    p[idx]? = t[q + idx]? := by
  conv_lhs => rw [← h]
  rw [List.getElem?_take, if_pos hidx, List.getElem?_drop]

/-- A matching slice lies inside the text (nonempty pattern). -/
lemma slice_bound {t p : List α} {q : ℕ} (hp : p ≠ [])
    (h : (t.drop q).take p.length = p) : q + p.length ≤ t.length := by
  have hlen := congrArg List.length h
  have hp' : 0 < p.length := List.length_pos.2 hp
  simp only [List.length_take, List.length_drop] at hlen
  omega

/-! ### Correctness of `compute_lps` -/

/-- Invariant-carrying induction over the `compute_lps` loop.  At the loop
head the table is correct below the cursor `i`, `len` is a border length
of `p.take i`, and every longer border of `p.take i` has already been
ruled out as non-extendable by `p[i]`.  Conclusion: the loop never reads
out of bounds, and with fuel above `2*(m - i) + len` it returns exactly
the specification table. -/
lemma lpsLoop_master (p : List α) :
    ∀ (fuel : ℕ) (lps : List ℕ) (len i : ℕ),
      1 ≤ i →
      lps.length = p.length →
      (∀ t, t < i → lps[t]? = some (maxBord p (t + 1))) →
      len < i →
      p.take len <:+ p.take i →
      (∀ b, b < i → p.take b <:+ p.take i → len < b → p[b]? ≠ p[i]?) →
      lpsLoop p fuel lps len i ≠ .error .oob ∧
        (2 * (p.length - i) + len < fuel →
          lpsLoop p fuel lps len i = .ok (lpsTable p)) := by
  intro fuel
  induction fuel with
  | zero =>
    intro lps len i hi hlen h1 hlt hb h3
    refine ⟨?_, fun h => absurd h (by omega)⟩
    rw [lpsLoop]
    split <;> simp
  | succ fuel ih =>
    intro lps len i hi hlen h1 hlt hb h3
    by_cases him : i < p.length
    case neg =>
      have hexit : lpsLoop p (fuel + 1) lps len i = .ok lps := by
        rw [lpsLoop, if_neg him]
      have hlps : lps = lpsTable p := by
        apply List.ext_getElem?
        intro k
        by_cases hk : k < p.length
        · rw [h1 k (by omega), lpsTable_getElem? hk]
        · rw [List.getElem?_eq_none (by omega),
            List.getElem?_eq_none (by rw [length_lpsTable]; omega)]
      rw [hexit, hlps]
      exact ⟨by simp, fun _ => rfl⟩
    case pos =>
      have hlenm : len < p.length := by omega
      have hpi : p[i]? = some (p.get ⟨i, him⟩) := List.getElem?_eq_getElem him
      have hplen : p[len]? = some (p.get ⟨len, hlenm⟩) := List.getElem?_eq_getElem hlenm
      rw [lpsLoop, if_pos him, hpi, hplen]
      by_cases hcmp : p.get ⟨i, him⟩ = p.get ⟨len, hlenm⟩
      · -- comparison succeeds: record len+1 and advance
        simp only [hcmp, if_true, if_pos rfl]
        have hmb : maxBord p (i + 1) = len + 1 :=
          maxBord_succ_eq_succ hlt him hpi hplen hcmp.symm hb h3
        have step := ih (lps.set i (len + 1)) (len + 1) (i + 1)
          (by omega)
          (by rw [List.length_set]; exact hlen)
          (by
            intro t ht
            rcases Nat.lt_succ_iff_lt_or_eq.1 ht with ht' | rfl
            · rw [List.getElem?_set_ne (by omega)]
              exact h1 t ht'
            · rw [List.getElem?_set_self (by omega), hmb])
          (by omega)
          ((bord_succ_iff hplen hpi).2 ⟨hcmp.symm, hb⟩)
          (h3_of_maxBord hmb)
        exact ⟨step.1, fun hfuel => step.2 (by omega)⟩
      · -- comparison fails
        simp only [hcmp, if_false]
        by_cases hlen0 : len = 0
        case pos =>
          subst hlen0
          rw [if_neg (by omega)]
          have hmb : maxBord p (i + 1) = 0 :=
            maxBord_succ_eq_zero him hpi hplen
              (fun h => hcmp h.symm) h3
          have step := ih (lps.set i 0) 0 (i + 1)
            (by omega)
            (by rw [List.length_set]; exact hlen)
            (by
              intro t ht
              rcases Nat.lt_succ_iff_lt_or_eq.1 ht with ht' | rfl
              · rw [List.getElem?_set_ne (by omega)]
                exact h1 t ht'
              · rw [List.getElem?_set_self (by omega), hmb])
            (by omega)
            (by simp)
            (h3_of_maxBord hmb)
          exact ⟨step.1, fun hfuel => step.2 (by omega)⟩
        case neg =>
          rw [if_pos hlen0]
          have hl1 : len - 1 + 1 = len := by omega
          have hread : lps[len - 1]? = some (maxBord p len) := by
            rw [h1 (len - 1) (by omega), hl1]
          rw [hread]
          have hmblt : maxBord p len < len := maxBord_lt (by omega)
          have step := ih lps (maxBord p len) i hi hlen h1
            (by omega)
            ((maxBord_suffix p len).trans hb)
            (by
              intro b hb' hsuf hgt
              rcases Nat.lt_trichotomy b len with hbl | rfl | hbg
              · exfalso
                have hnest : p.take b <:+ p.take len :=
                  bord_of_bord_le (Nat.le_of_lt hbl) hsuf hb
                have : b ≤ maxBord p len :=
                  le_maxBord (by omega) hnest
                omega
              · rw [hplen, hpi]
                intro h
                exact hcmp (by injection h with h; exact h.symm)
              · exact h3 b hb' hsuf hbg)
          exact ⟨step.1, fun hfuel => step.2 (by omega)⟩

/-- The builder `compute_lps` always succeeds and returns the specification table. -/
lemma compute_lps_eq (p : List α) : compute_lps p = .ok (lpsTable p) := by
  rcases Nat.eq_zero_or_pos p.length with hm | hm
  · have hp : p = [] := List.length_eq_zero.1 hm
    subst hp
    rfl
  · rcases lpsLoop_master p (2 * p.length) (List.replicate p.length 0) 0 1
      (by omega)
      (by simp)
      (by
        intro t ht
        have ht0 : t = 0 := by omega
        subst ht0
        rw [List.getElem?_replicate_of_lt hm, maxBord_one])
      (by omega)
      (by simp)
      (by intro b hb _ hbo; omega)
      with ⟨_, h⟩
    exact h (by omega)

/-! ### Correctness of `kmp_search` -/

/-- One step of the recorded-matches invariant: when the text cursor
advances past `i`, the candidate start `i + 1 - m` joins the naive scan's
range; if it is not an occurrence the recorded list is unchanged. -/
lemma range_filter_succ_of_not {f : ℕ → Bool} {i m : ℕ}
    (h : m ≤ i + 1 → f (i + 1 - m) = false) :
    (List.range (i + 1 + 1 - m)).filter f = (List.range (i + 1 - m)).filter f := by
  by_cases hle : m ≤ i + 1
  · have he : i + 1 + 1 - m = (i + 1 - m) + 1 := by omega
    rw [he, List.range_succ, List.filter_append]
    simp [h hle]
  · have h1 : i + 1 + 1 - m = 0 := by omega
    have h2 : i + 1 - m = 0 := by omega
    rw [h1, h2]

/-- An occurrence ending strictly beyond the cursor cannot start at
`i + 1 - m` while fewer than `m - 1` symbols are currently matched. -/
lemma no_occ_growth {t p : List α} {i j : ℕ} (hj1 : j + 1 < p.length)
    (hJ4 : ∀ q, (t.drop q).take p.length = p → i < q + p.length → i ≤ q + j) :
    p.length ≤ i + 1 →
      decide ((t.drop (i + 1 - p.length)).take p.length = p) = false := by
  intro hml
  apply decide_eq_false
  intro hocc
  have := hJ4 _ hocc (by omega)
  omega

/-- A partial match of length `k ≤ jb` ending at `i`, where `p.take jb`
also matches ending at `i`, is either all of `jb` or a border of
`p.take jb`, hence at most `maxBord p jb`. -/
lemma partial_le_maxBord {t p : List α} {q k i jb : ℕ}
    (hocq : (t.drop q).take p.length = p)
    (hkjb : k ≤ jb) (hjbm : jb ≤ p.length)
    (hqk : q + k = i)
    (hmain : p.take jb <:+ t.take i) :
    k ≤ maxBord p jb ∨ k = jb := by
  rcases eq_or_lt_of_le hkjb with rfl | hklt
  · right
    rfl
  · left
    have hslice : (t.drop q).take k = p.take k := by
      conv_rhs => rw [← hocq]
      rw [List.take_take, Nat.min_eq_left (by omega)]
    have hsuf : p.take k <:+ t.take i := by
      rw [← hqk]
      exact suffix_take_of_slice hslice
    have hnest : p.take k <:+ p.take jb :=
      bord_of_bord_le (Nat.le_of_lt hklt) hsuf hmain
    exact le_maxBord (by omega) hnest

/-- Invariant-carrying induction over the `kmp_search` loop.  At the loop
head: `j < m` symbols are matched ending at `i` (`p.take j` is a suffix of
`t.take i`), `indices` holds exactly the naive-scan matches ending at or
before `i`, and every occurrence ending beyond `i` starts at `i - j` or
later.  Conclusion: the loop never reads out of bounds, and with fuel
above `2*(n - i) + j` it returns exactly the naive scan's list. -/
lemma kmpLoop_master (t p : List α) (hm : 1 ≤ p.length) :
    ∀ (fuel : ℕ) (inds : List ℕ) (i j : ℕ),
      i ≤ t.length →
      j < p.length →
      j ≤ i →
      p.take j <:+ t.take i →
      inds = (List.range (i + 1 - p.length)).filter
        (fun q => decide ((t.drop q).take p.length = p)) →
      (∀ q, (t.drop q).take p.length = p → i < q + p.length → i ≤ q + j) →
      kmpLoop t p (lpsTable p) fuel inds i j ≠ .error .oob ∧
        (2 * (t.length - i) + j < fuel →
          kmpLoop t p (lpsTable p) fuel inds i j = .ok (naive_search t p)) := by
  intro fuel
  induction fuel with
  | zero =>
    intro inds i j hi hj hji hJ2 hinds hJ4
    refine ⟨?_, fun h => absurd h (by omega)⟩
    rw [kmpLoop]
    split <;> simp
  | succ fuel ih =>
    intro inds i j hi hj hji hJ2 hinds hJ4
    by_cases hin : i < t.length
    case neg =>
      have hieq : i = t.length := by omega
      subst hieq
      rw [kmpLoop, if_neg hin]
      exact ⟨by simp, fun _ => by rw [hinds]; rfl⟩
    case pos =>
      have hti : t[i]? = some (t.get ⟨i, hin⟩) := List.getElem?_eq_getElem hin
      have hpj : p[j]? = some (p.get ⟨j, hj⟩) := List.getElem?_eq_getElem hj
      rw [kmpLoop, if_pos hin, hti, hpj]
      by_cases hc : t.get ⟨i, hin⟩ = p.get ⟨j, hj⟩
      · -- the characters match: advance both cursors
        simp only [hc, if_true]
        have hJ2s : p.take (j + 1) <:+ t.take (i + 1) := by
          rw [take_succ_of_getElem? hpj, take_succ_of_getElem? hti]
          exact concat_suffix_concat.2 ⟨hc.symm, hJ2⟩
        by_cases hjm1 : j + 1 = p.length
        · -- full match found at i + 1 - m
          rw [if_pos hjm1]
          have hidx : (lpsTable p)[j + 1 - 1]? = some (maxBord p p.length) := by
            rw [show j + 1 - 1 = j from rfl, lpsTable_getElem? hj, hjm1]
          rw [hidx]
          have hpfull : p.take p.length = p := List.take_length p
          have hpsuf : p <:+ t.take (i + 1) := by
            rw [← hpfull, ← hjm1]
            exact hJ2s
          have hocc : (t.drop (i + 1 - p.length)).take p.length = p := by
            have := slice_of_suffix_take (by omega) hpsuf
            simpa using this
          have hq0 : i + 1 - (j + 1) = i + 1 - p.length := by rw [hjm1]
          have hmb := maxBord_le p p.length
          have hmlt : maxBord p p.length < p.length := maxBord_lt hm
          have hinds' : inds ++ [i + 1 - (j + 1)] =
              (List.range (i + 1 + 1 - p.length)).filter
                (fun q => decide ((t.drop q).take p.length = p)) := by
            have hrange : i + 1 + 1 - p.length = (i + 1 - p.length) + 1 := by
              omega
            rw [hq0, hrange, List.range_succ, List.filter_append, hinds]
            simp [hocc]
          have hJ4' : ∀ q, (t.drop q).take p.length = p →
              i + 1 < q + p.length → i + 1 ≤ q + maxBord p p.length := by
            intro q hocq hqi
            by_cases hqbig : i + 1 ≤ q
            · omega
            · have hk1 : q + (i + 1 - q) = i + 1 := by omega
              rcases partial_le_maxBord hocq
                  (k := i + 1 - q) (by omega) (le_refl _) hk1
                  (by rw [hpfull]; exact hpsuf) with hle | heq
              · omega
              · omega
          have step := ih (inds ++ [i + 1 - (j + 1)]) (i + 1)
            (maxBord p p.length)
            (by omega) hmlt (by omega)
            ((maxBord_suffix p p.length).trans (by rw [hpfull]; exact hpsuf))
            hinds' hJ4'
          exact ⟨step.1, fun hfuel => step.2 (by omega)⟩
        · -- no full match yet
          rw [if_neg hjm1]
          have hj1m : j + 1 < p.length := by omega
          have hgrow : inds = (List.range (i + 1 + 1 - p.length)).filter
              (fun q => decide ((t.drop q).take p.length = p)) := by
            rw [hinds, range_filter_succ_of_not (no_occ_growth hj1m hJ4)]
          have hJ4c : ∀ q, (t.drop q).take p.length = p →
              i + 1 < q + p.length → i + 1 ≤ q + (j + 1) := by
            intro q hocq hqi
            have := hJ4 q hocq (by omega)
            omega
          have ihcont := ih inds (i + 1) (j + 1) (by omega) hj1m (by omega)
            hJ2s hgrow hJ4c
          by_cases hin1 : i + 1 < t.length
          · rw [if_pos hin1]
            have hti' : t[i + 1]? = some (t.get ⟨i + 1, hin1⟩) :=
              List.getElem?_eq_getElem hin1
            have hpj' : p[j + 1]? = some (p.get ⟨j + 1, hj1m⟩) :=
              List.getElem?_eq_getElem hj1m
            rw [hti', hpj']
            by_cases hc' : t.get ⟨i + 1, hin1⟩ = p.get ⟨j + 1, hj1m⟩
            · simp only [hc', if_true]
              exact ⟨ihcont.1, fun hfuel => ihcont.2 (by omega)⟩
            · simp only [hc', if_false]
              rw [if_pos (by omega : j + 1 ≠ 0)]
              have hidx : (lpsTable p)[j + 1 - 1]? =
                  some (maxBord p (j + 1)) := by
                rw [show j + 1 - 1 = j from rfl, lpsTable_getElem? hj]
              rw [hidx]
              have hmb := maxBord_le p (j + 1)
              have hJ4f : ∀ q, (t.drop q).take p.length = p →
                  i + 1 < q + p.length → i + 1 ≤ q + maxBord p (j + 1) := by
                intro q hocq hqi
                by_cases hqbig : i + 1 ≤ q
                · omega
                · have h4 := hJ4 q hocq (by omega)
                  have hk1 : q + (i + 1 - q) = i + 1 := by omega
                  rcases partial_le_maxBord hocq
                      (k := i + 1 - q) (by omega) (by omega) hk1 hJ2s
                    with hle | heq
                  · omega
                  · exfalso
                    have hchr := slice_getElem? hocq hj1m
                    have hqj : q + (j + 1) = i + 1 := by omega
                    rw [hqj, hpj', hti'] at hchr
                    exact hc' (by injection hchr with h; exact h.symm)
              have step := ih inds (i + 1) (maxBord p (j + 1)) (by omega)
                (by omega) (by omega)
                ((maxBord_suffix p (j + 1)).trans hJ2s) hgrow hJ4f
              exact ⟨step.1, fun hfuel => step.2 (by omega)⟩
          · rw [if_neg hin1]
            exact ⟨ihcont.1, fun hfuel => ihcont.2 (by omega)⟩
      · -- the characters differ: fall back or advance the text cursor
        simp only [if_neg hc]
        rw [if_neg (by omega : ¬ j = p.length), if_pos hin, hti, hpj]
        simp only [hc, if_false]
        by_cases hj0 : j = 0
        case pos =>
          subst hj0
          rw [if_neg (by omega : ¬ (0 : ℕ) ≠ 0)]
          have hnocc : ∀ q, (t.drop q).take p.length = p → q ≠ i := by
            intro q hocq hqeq
            subst hqeq
            have hchr := slice_getElem? hocq hm
            rw [Nat.add_zero, hpj, hti] at hchr
            exact hc (by injection hchr with h; exact h.symm)
          have hJ4z : ∀ q, (t.drop q).take p.length = p →
              i + 1 < q + p.length → i + 1 ≤ q + 0 := by
            intro q hocq hqi
            have := hJ4 q hocq (by omega)
            have := hnocc q hocq
            omega
          have hgrow : inds = (List.range (i + 1 + 1 - p.length)).filter
              (fun q => decide ((t.drop q).take p.length = p)) := by
            rw [hinds, range_filter_succ_of_not]
            intro hml
            apply decide_eq_false
            intro hocc0
            have h4 := hJ4 _ hocc0 (by omega)
            have h5 := hnocc _ hocc0
            omega
          have step := ih inds (i + 1) 0 (by omega) hm (by omega)
            (by simp) hgrow hJ4z
          exact ⟨step.1, fun hfuel => step.2 (by omega)⟩
        case neg =>
          rw [if_pos hj0]
          have hidx : (lpsTable p)[j - 1]? = some (maxBord p j) := by
            rw [lpsTable_getElem? (by omega), show j - 1 + 1 = j by omega]
          rw [hidx]
          have hmb := maxBord_le p j
          have hmlt : maxBord p j < j := maxBord_lt (by omega)
          have hJ4f : ∀ q, (t.drop q).take p.length = p →
              i < q + p.length → i ≤ q + maxBord p j := by
            intro q hocq hqi
            by_cases hqbig : i ≤ q
            · omega
            · have h4 := hJ4 q hocq hqi
              have hk1 : q + (i - q) = i := by omega
              rcases partial_le_maxBord hocq
                  (k := i - q) (by omega) (by omega) hk1 hJ2
                with hle | heq
              · omega
              · exfalso
                have hchr := slice_getElem? hocq hj
                have hqj : q + j = i := by omega
                rw [hqj, hpj, hti] at hchr
                exact hc (by injection hchr with h; exact h.symm)
          have step := ih inds i (maxBord p j) hi (by omega) (by omega)
            ((maxBord_suffix p j).trans hJ2) hinds hJ4f
          exact ⟨step.1, fun hfuel => step.2 (by omega)⟩

/-- For every non-empty pattern, `kmp_search` succeeds and returns
exactly the naive scan's list. -/
lemma kmp_search_eq_naive {t p : List α} (hp : p ≠ []) :
    kmp_search t p = .ok (naive_search t p) := by
  have hm : 1 ≤ p.length := List.length_pos.2 hp
  rw [kmp_search, kmp_search_with]
  by_cases hmn : t.length < p.length
  · rw [if_pos (Or.inr hmn)]
    have hempty : naive_search t p = [] := by
      rw [naive_search, show t.length + 1 - p.length = 0 by omega]
      rfl
    rw [hempty]
  · rw [if_neg (by
      rintro (h | h)
      · omega
      · omega)]
    rw [compute_lps_eq]
    have init := kmpLoop_master t p hm (2 * t.length + 1) [] 0 0
      (by omega) hm (by omega)
      (by simp)
      (by rw [show 0 + 1 - p.length = 0 by omega]; rfl)
      (fun q _ _ => by omega)
    exact init.2 (by omega)

/-- The `compute_lps` loop never reads out of bounds, for any fuel. -/
lemma lpsLoop_initial_no_oob (p : List α) (fuel : ℕ) :
    lpsLoop p fuel (List.replicate p.length 0) 0 1 ≠ .error .oob := by
  rcases Nat.eq_zero_or_pos p.length with hm | hm
  · cases fuel with
    | zero => rw [lpsLoop, if_neg (by omega)]; simp
    | succ f => rw [lpsLoop, if_neg (by omega)]; simp
  · exact (lpsLoop_master p fuel (List.replicate p.length 0) 0 1
      (by omega)
      (by simp)
      (by
        intro t ht
        have ht0 : t = 0 := by omega
        subst ht0
        rw [List.getElem?_replicate_of_lt hm, maxBord_one])
      (by omega)
      (by simp)
      (by intro b hb _ hbo; omega)).1

/-- The `kmp_search` loop never reads out of bounds from its initial
state, for any fuel, whenever the pattern is non-empty. -/
lemma kmpLoop_initial_no_oob (t p : List α) (hm : 1 ≤ p.length) (fuel : ℕ) :
    kmpLoop t p (lpsTable p) fuel [] 0 0 ≠ .error .oob :=
  (kmpLoop_master t p hm fuel [] 0 0
    (by omega) hm (by omega)
    (by simp)
    (by rw [show 0 + 1 - p.length = 0 by omega]; rfl)
    (fun q _ _ => by omega)).1

/-- Eliding the `elif` guard only on the failed-comparison path does not
change the loop: on that path the guard is implied by the loop condition
and the failed comparison. -/
lemma kmpLoopMG_eq (t p : List α) (lps : List ℕ) :
    ∀ (fuel : ℕ) (inds : List ℕ) (i j : ℕ),
      kmpLoopMG t p lps fuel inds i j = kmpLoop t p lps fuel inds i j := by
  intro fuel
  induction fuel with
  | zero => intro inds i j; rfl
  | succ fuel ih =>
    intro inds i j
    rw [kmpLoopMG, kmpLoop]
    by_cases hin : i < t.length
    case neg => rw [if_neg hin, if_neg hin]
    case pos =>
      rw [if_pos hin, if_pos hin]
      cases hti : t[i]? with
      | none => rfl
      | some ti =>
        cases hpj : p[j]? with
        | none => rfl
        | some pj =>
          by_cases hc : ti = pj
          · simp only [hc, if_true]
            by_cases hjm : j + 1 = p.length
            · rw [if_pos hjm, if_pos hjm]
              cases lps[j + 1 - 1]? with
              | none => rfl
              | some fb => exact ih _ _ _
            · rw [if_neg hjm, if_neg hjm]
              by_cases hin1 : i + 1 < t.length
              · rw [if_pos hin1, if_pos hin1]
                cases t[i + 1]? with
                | none => rfl
                | some ti' =>
                  cases p[j + 1]? with
                  | none => rfl
                  | some pj' =>
                    by_cases hc' : ti' = pj'
                    · simp only [hc', if_true]
                      exact ih _ _ _
                    · simp only [hc', if_false]
                      rw [if_pos (show j + 1 ≠ 0 by omega),
                        if_pos (show j + 1 ≠ 0 by omega)]
                      cases lps[j + 1 - 1]? with
                      | none => rfl
                      | some fb => exact ih _ _ _
              · rw [if_neg hin1, if_neg hin1]
                exact ih _ _ _
          · simp only [hc, if_false]
            by_cases hjm : j = p.length
            · rw [if_pos hjm, if_pos hjm]
              cases lps[j - 1]? with
              | none => rfl
              | some fb => exact ih _ _ _
            · rw [if_neg hjm, if_neg hjm, if_pos hin, hti, hpj]
              simp only [hc, if_false]
              by_cases hj0 : j = 0
              · subst hj0
                rw [if_neg (show ¬ (0 : ℕ) ≠ 0 by omega),
                  if_neg (show ¬ (0 : ℕ) ≠ 0 by omega)]
                exact ih _ _ _
              · rw [if_pos hj0, if_pos hj0]
                cases lps[j - 1]? with
                | none => rfl
                | some fb => exact ih _ _ _

/-- Guard elision on the failed-comparison path is sound at the level of
`kmp_search` as well. -/
lemma kmp_search_mg_eq (t p : List α) : kmp_search_mg t p = kmp_search t p := by
  rw [kmp_search_mg, kmp_search, kmp_search_with]
  by_cases h : p.length = 0 ∨ t.length < p.length
  · rw [if_pos h, if_pos h]
  · rw [if_neg h, if_neg h]
    cases compute_lps p with
    | error e => rfl
    | ok lps => exact kmpLoopMG_eq t p lps _ _ _ _

/-! ### Claim theorems -/

/-- C1 (counterexample): as stated, the claim fails for the empty
pattern.  On text `[0]` and the empty pattern, offset `0` satisfies
`text[0 .. 0+m) = pattern` (both sides empty), and the naive reference
scan returns `[0, 1]`, yet `kmp_search` returns the empty list. -/
theorem C1_counterexample :
    kmp_search [0] ([] : List ℕ) = .ok [] ∧
      (List.drop 0 [0]).take (List.length ([] : List ℕ)) = ([] : List ℕ) ∧
      naive_search [0] ([] : List ℕ) = [0, 1] :=
  ⟨rfl, rfl, rfl⟩

/-- C1 (amended: restricted to non-empty patterns): for every finite text
and every non-empty finite pattern over a comparable alphabet,
`kmp_search` returns exactly the naive quadratic reference scan's list,
which is strictly ascending and whose members are precisely the offsets
`q` with `text[q .. q+m) = pattern` (overlaps included). -/
theorem C1_kmp_search_matches_naive_scan (t p : List α) (hp : p ≠ []) :
    kmp_search t p = .ok (naive_search t p) ∧
      List.Sorted (· < ·) (naive_search t p) ∧
      ∀ q, q ∈ naive_search t p ↔ (t.drop q).take p.length = p := by
  refine ⟨kmp_search_eq_naive hp, ?_, ?_⟩
  · exact (List.pairwise_lt_range _).filter _
  · intro q
    rw [naive_search, List.mem_filter, List.mem_range]
    constructor
    · rintro ⟨-, h⟩
      exact of_decide_eq_true h
    · intro h
      refine ⟨?_, decide_eq_true h⟩
      have hb := slice_bound hp h
      have hm : 1 ≤ p.length := List.length_pos.2 hp
      omega

/-- C1 (witness): the amended theorem applied to text `[0, 1, 0]` and
pattern `[0]`. -/
theorem C1_kmp_search_matches_naive_scan_witness :
    ([0] : List ℕ) ≠ [] ∧
      (kmp_search [0, 1, 0] ([0] : List ℕ) =
          .ok (naive_search [0, 1, 0] [0]) ∧
        List.Sorted (· < ·) (naive_search [0, 1, 0] ([0] : List ℕ)) ∧
        ∀ q, q ∈ naive_search [0, 1, 0] ([0] : List ℕ) ↔
          (List.drop q [0, 1, 0]).take (List.length ([0] : List ℕ)) = [0]) :=
  ⟨by decide, C1_kmp_search_matches_naive_scan [0, 1, 0] [0] (by decide)⟩

/-- C2: for every pattern of length `m`, `compute_lps` succeeds and
returns a table of length exactly `m` whose entry at each position `i`
is the length of the longest proper prefix of `pattern[0..=i]` that is
also a suffix of `pattern[0..=i]` (for `m = 0` the table is empty, which
is forced by the length clause). -/
theorem C2_compute_lps_correct (p : List α) :
    ∃ l, compute_lps p = .ok l ∧ l.length = p.length ∧
      ∀ i, i < p.length →
        ∃ v, l[i]? = some v ∧
          v < (p.take (i + 1)).length ∧
          (p.take (i + 1)).take v <:+ p.take (i + 1) ∧
          ∀ s, s <+: p.take (i + 1) → s ≠ p.take (i + 1) →
            s <:+ p.take (i + 1) → s.length ≤ v := by
  refine ⟨lpsTable p, compute_lps_eq p, length_lpsTable p, ?_⟩
  intro i hi
  refine ⟨maxBord p (i + 1), lpsTable_getElem? hi, ?_, ?_, ?_⟩
  · rw [List.length_take]
    have := maxBord_lt (p := p) (i := i + 1) (by omega)
    omega
  · rw [List.take_take, Nat.min_eq_left (by
      have := maxBord_le p (i + 1)
      omega)]
    exact maxBord_suffix p (i + 1)
  · intro s hpre hne hsuf
    have hslen : s.length ≤ i + 1 := by
      have := hpre.length_le
      rw [List.length_take] at this
      omega
    have hseq : s = p.take s.length := by
      have h := List.prefix_iff_eq_take.1 hpre
      rw [List.take_take, Nat.min_eq_left hslen] at h
      exact h
    have hslt : s.length < i + 1 := by
      rcases eq_or_lt_of_le hslen with he | hl
      · refine absurd ?_ hne
        rw [hseq, he]
      · exact hl
    apply le_maxBord (by omega)
    rw [← hseq]
    exact hsuf

/-- C3: for every non-empty pattern, the table returned by `compute_lps`
has first entry `0`, and every entry at position `i` lies in `[0, i]`
(the lower bound is inherent to `ℕ`). -/
theorem C3_failure_table_invariant (p : List α) (hp : p ≠ []) :
    ∃ l : List ℕ, compute_lps p = .ok l ∧ l[0]? = some 0 ∧
      ∀ (i v : ℕ), l[i]? = some v → v ≤ i := by
  refine ⟨lpsTable p, compute_lps_eq p, ?_, ?_⟩
  · rw [lpsTable_getElem? (List.length_pos.2 hp),
      show (0 : ℕ) + 1 = 1 from rfl, maxBord_one]
  · intro i v hv
    have hi : i < p.length := by
      by_contra hcon
      rw [List.getElem?_eq_none (by rw [length_lpsTable]; omega)] at hv
      exact Option.noConfusion hv
    rw [lpsTable_getElem? hi] at hv
    have hle := maxBord_le p (i + 1)
    injection hv with hv
    omega

/-- C3 (witness): the invariant theorem applied to the pattern `[0, 1]`. -/
theorem C3_failure_table_invariant_witness :
    ([0, 1] : List ℕ) ≠ [] ∧
      ∃ l : List ℕ, compute_lps ([0, 1] : List ℕ) = .ok l ∧ l[0]? = some 0 ∧
        ∀ (i v : ℕ), l[i]? = some v → v ≤ i :=
  ⟨by decide, C3_failure_table_invariant [0, 1] (by decide)⟩

/-- C4 (counterexample): the `elif` condition is *not* always true when
the `elif` test is reached.  On text `[0, 0, 1]` and pattern `[0, 0]`,
after the initial comparison at `i = 1, j = 1` succeeds the test is
reached with `text[1] == pattern[1]`, so the instrumented search reports
`false`; moreover replacing the branch by the unguarded two-way branch
changes the result from `[0]` to `[]`, so the two are not equivalent. -/
theorem C4_counterexample :
    kmp_search_chk [0, 0, 1] ([0, 0] : List ℕ) = .ok ([0], false) ∧
      kmp_search_twoway [0, 0, 1] ([0, 0] : List ℕ) = .ok [] ∧
      kmp_search [0, 0, 1] ([0, 0] : List ℕ) = .ok [0] :=
  ⟨rfl, rfl, rfl⟩

/-- C4 (amended): the `elif` condition is guaranteed true only on
iterations whose initial comparison `text[i] == pattern[j]` failed; the
guard may be elided on that path alone without changing `kmp_search` on
any input. -/
theorem C4_elif_redundant_only_on_mismatch_path :
    ∀ (t p : List α), kmp_search_mg t p = kmp_search t p :=
  kmp_search_mg_eq

/-- C5: for every text, including the empty text, searching for the
empty pattern returns the empty match list. -/
theorem C5_empty_pattern_unmatchable (t : List α) :
    kmp_search t ([] : List α) = .ok [] := rfl

/-- C6: whenever the pattern is longer than the text, `kmp_search`
returns the empty match list, and on this path the failure-table builder
is never consulted: the result is the same for *every* builder
substituted for `compute_lps`. -/
theorem C6_pattern_longer_than_text (t p : List α)
    (builder : List α → Except Err (List ℕ)) (h : t.length < p.length) :
    kmp_search_with builder t p = .ok [] ∧ kmp_search t p = .ok [] := by
  constructor
  · rw [kmp_search_with, if_pos (Or.inr h)]
  · rw [kmp_search, kmp_search_with, if_pos (Or.inr h)]

/-- C6 (witness): empty text, pattern `[0]`, and a builder that always
fails; the result is still `.ok []`. -/
theorem C6_pattern_longer_than_text_witness :
    List.length ([] : List ℕ) < List.length ([0] : List ℕ) ∧
      (kmp_search_with (fun _ => .error .oob) [] ([0] : List ℕ) = .ok [] ∧
        kmp_search [] ([0] : List ℕ) = .ok []) :=
  ⟨by decide,
    C6_pattern_longer_than_text [] [0] (fun _ => .error .oob) (by decide)⟩

/-- C7: both operations are total: for every finite pattern and text
(empty ones included) the embedded loops terminate within their fuel and
neither function returns an error signal. -/
theorem C7_totality :
    (∀ p : List α, ∃ r, compute_lps p = .ok r) ∧
      ∀ t p : List α, ∃ r, kmp_search t p = .ok r := by
  refine ⟨fun p => ⟨lpsTable p, compute_lps_eq p⟩, ?_⟩
  intro t p
  by_cases hp : p = []
  · subst hp
    exact ⟨[], rfl⟩
  · exact ⟨naive_search t p, kmp_search_eq_naive hp⟩

/-- C8: for every non-empty pattern, searching for the pattern inside
itself returns exactly `[0]`. -/
theorem C8_full_string_identity (p : List α) (hp : p ≠ []) :
    kmp_search p p = .ok [0] := by
  rw [kmp_search_eq_naive hp]
  have hnv : naive_search p p = [0] := by
    rw [naive_search, show p.length + 1 - p.length = 1 by omega,
      show List.range 1 = [0] from rfl]
    simp
  rw [hnv]

/-- C8 (witness): the full-string identity at the pattern `[0]`. -/
theorem C8_full_string_identity_witness :
    ([0] : List ℕ) ≠ [] ∧ kmp_search ([0] : List ℕ) [0] = .ok [0] :=
  ⟨by decide, C8_full_string_identity [0] (by decide)⟩

/-- C9: `kmp_search` is deterministic: two calls on identical inputs
yield identical, order-stable results (in this pure embedding, mutation
of the text, the pattern, or shared state is excluded by construction,
mirroring the source, which only writes to call-local variables). -/
theorem C9_deterministic (t p : List α) (r₁ r₂ : Except Err (List ℕ))
    (h₁ : kmp_search t p = r₁) (h₂ : kmp_search t p = r₂) : r₁ = r₂ :=
  h₁.symm.trans h₂

/-- C9 (witness): two runs on text `[0]`, pattern `[0]` agree. -/
theorem C9_deterministic_witness :
    kmp_search ([0] : List ℕ) [0] = .ok [0] ∧
      kmp_search ([0] : List ℕ) [0] = .ok [0] ∧
      (Except.ok [0] : Except Err (List ℕ)) = .ok [0] :=
  ⟨rfl, rfl,
    C9_deterministic ([0] : List ℕ) [0] (Except.ok [0]) (Except.ok [0])
      rfl rfl⟩

/-- C10: no subscript read of either function can fail: in this
embedding every read is `Option`-returning and a failed read surfaces as
`.error .oob`, which is never produced — by the loops from their initial
states for *any* fuel (nonempty pattern for the search loop, which the
`m == 0` guard ensures), nor by `compute_lps` or `kmp_search` on any
input. -/
theorem C10_no_out_of_bounds_reads :
    (∀ (p : List α) (fuel : ℕ),
        lpsLoop p fuel (List.replicate p.length 0) 0 1 ≠ .error .oob) ∧
      (∀ (t p : List α) (fuel : ℕ), 1 ≤ p.length →
        kmpLoop t p (lpsTable p) fuel [] 0 0 ≠ .error .oob) ∧
      (∀ p : List α, compute_lps p ≠ .error .oob) ∧
      ∀ t p : List α, kmp_search t p ≠ .error .oob := by
  refine ⟨lpsLoop_initial_no_oob, ?_, ?_, ?_⟩
  · exact fun t p fuel hm => kmpLoop_initial_no_oob t p hm fuel
  · intro p
    rw [compute_lps_eq]
    simp
  · intro t p
    by_cases hp : p = []
    · subst hp
      intro h
      exact Except.noConfusion h
    · rw [kmp_search_eq_naive hp]
      simp

/-- C10 (witness): the search loop on text `[0, 1]`, pattern `[0]`, with
fuel `5`, does not report an out-of-bounds read. -/
theorem C10_no_out_of_bounds_reads_witness :
    1 ≤ List.length ([0] : List ℕ) ∧
      kmpLoop [0, 1] ([0] : List ℕ) (lpsTable [0]) 5 [] 0 0 ≠
        .error .oob :=
  ⟨by decide, C10_no_out_of_bounds_reads.2.1 [0, 1] [0] 5 (by decide)⟩

example : compute_lps ([0, 0, 1, 0] : List ℕ) = .ok [0, 1, 0, 1] := rfl
example : compute_lps ([] : List ℕ) = .ok [] := rfl
example : lpsTable ([0, 0, 1, 0] : List ℕ) = [0, 1, 0, 1] := by decide
example : kmp_search ([0, 0, 0, 0] : List ℕ) [0, 0] = .ok [0, 1, 2] := rfl
example : naive_search ([0, 0, 0, 0] : List ℕ) [0, 0] = [0, 1, 2] := by decide
example : kmp_search ([0, 1, 2, 0, 1, 2, 3] : List ℕ) [0, 1, 2, 3] = .ok [3] := rfl

end KMP
